import Mathlib

/-!
Verification of the filename/identity subsystem of the cad-os repository
(file api/utils/filename_utils.py): deterministic hash-based model
identifiers and the legacy parameter-filename codec.

The Python code is shallowly embedded: Python strings are Lean strings
(lists of characters), Python dicts are association lists with unique keys
and dict-style insertion, and Python ints are Lean integers.  Python floats
are modelled by their canonical shortest decimal representation (the string
produced by Python's repr), which is injective on floats; the numeric
parsing builtins int() and float() are modelled on plain decimal literals
(optional sign, digits, optional fractional part, underscores between
digits) — the repository's legacy filenames only ever contain such
literals, never exponent, infinity or nan forms.
-/

set_option maxRecDepth 4000

namespace CadOS

/-- Scalar parameter values as they appear in Python dicts: integers,
floats (modelled by their canonical repr string), strings and None. -/
inductive PyVal where
  | vInt (n : Int)
  | vFloat (r : String)
  | vStr (s : String)
  | vNone
deriving DecidableEq, Repr

/-- Python str() of a scalar value. -/
def pyStr : PyVal → String
  | .vInt n => toString n
  | .vFloat r => r
  | .vStr s => s
  | .vNone => "None"

/-- A Python dict of parameters, in insertion order, keys unique. -/
abbrev ParameterSet := List (String × PyVal)

/-- Python dict assignment d[k] = v: replace in place if the key exists,
otherwise append. -/
def dictInsert (d : ParameterSet) (k : String) (v : PyVal) : ParameterSet :=
  if k ∈ List.map Prod.fst d then
    List.map (fun p => if p.1 = k then (k, v) else p) d
  else
    d ++ [(k, v)]

/-- Python dict lookup d.get(k): value of the unique entry with key k. -/
def dictGet (k : String) (d : ParameterSet) : Option PyVal :=
  Option.map Prod.snd (List.find? (fun p => decide (p.1 = k)) d)

/-! Python string primitives, on lists of characters. -/

/-- Python s.startswith(p), as a check on character lists. -/
def listStartsWith : List Char → List Char → Bool
  | [], _ => true
  | _ :: _, [] => false
  | p :: ps, c :: cs => p == c && listStartsWith ps cs

/-- Python s.startswith(p) on strings. -/
def pyStartsWith (s p : String) : Bool :=
  listStartsWith p.data s.data

/-- Python s.replace(pat, rep) (pat nonempty): one left-to-right scan
replacing non-overlapping occurrences.  The extra fuel argument (an upper
bound on the length of the text) only drives termination. -/
def replaceCore (pat rep : List Char) : Nat → List Char → List Char
  | _, [] => []
  | 0, l => l
  | fuel + 1, c :: cs =>
    if listStartsWith pat (c :: cs) then
      rep ++ replaceCore pat rep fuel (List.drop pat.length (c :: cs))
    else
      c :: replaceCore pat rep fuel cs

/-- Python s.replace(pat, rep) on strings (pat nonempty in all uses). -/
def pyReplace (s pat rep : String) : String :=
  String.mk (replaceCore pat.data rep.data s.data.length s.data)

/-- Python sep.join(parts). -/
def pyJoin (sep : String) : List String → String
  | [] => ""
  | [s] => s
  | s :: rest => s ++ sep ++ pyJoin sep rest

/-- Python s.split(c) for a single-character separator: keeps empty
segments, always returns at least one segment. -/
def splitOnChar (c : Char) : List Char → List (List Char)
  | [] => [[]]
  | x :: xs =>
    match splitOnChar c xs with
    | [] => [[]]
    | seg :: segs => if x == c then [] :: seg :: segs else (x :: seg) :: segs

/-- Python s.split(c, 1) when c occurs in s: the part before the first
occurrence and the part after it. -/
def splitFirst (c : Char) (l : List Char) : List Char × List Char :=
  (List.takeWhile (fun x => x ≠ c) l, List.tail (List.dropWhile (fun x => x ≠ c) l))

/-- Part of s before the last occurrence of c (assuming c occurs):
Python s.rsplit(c, 1)[0]. -/
def beforeLast (c : Char) (l : List Char) : List Char :=
  List.reverse (List.tail (List.dropWhile (fun x => x ≠ c) (List.reverse l)))

/-! Model of the numeric parsing builtins int() and float(), restricted to
plain decimal literals as described in the file docstring. -/

/-- Validity of Python numeric-literal underscores: every underscore sits
between two digit characters.  The first argument is the preceding
character (a non-digit sentinel at the start). -/
def underscoresOk : Char → List Char → Bool
  | _, [] => true
  | prev, '_' :: rest =>
    match rest with
    | [] => false
    | next :: _ => prev.isDigit && next.isDigit && underscoresOk '_' rest
  | _, c :: rest => underscoresOk c rest

/-- Strip valid numeric-literal underscores; none if misplaced. -/
def stripUnderscores (l : List Char) : Option (List Char) :=
  if underscoresOk ' ' l then some (List.filter (fun c => c ≠ '_') l) else none

/-- Value of a nonempty all-digit character list. -/
def digitsVal? (l : List Char) : Option Nat :=
  if l ≠ [] && l.all Char.isDigit then
    some (List.foldl (fun acc c => 10 * acc + (c.toNat - '0'.toNat)) 0 l)
  else none

/-- Split an optional leading sign from a numeric literal; true means
negative. -/
def splitSign : List Char → Bool × List Char
  | '-' :: rest => (true, rest)
  | '+' :: rest => (false, rest)
  | l => (false, l)

/-- Model of Python int(s) on plain decimal literals. -/
def pyInt? (s : String) : Option Int :=
  match stripUnderscores s.data with
  | none => none
  | some l =>
    match splitSign l with
    | (neg, ds) =>
      Option.map (fun n => if neg then -(n : Int) else (n : Int)) (digitsVal? ds)

/-- Drop leading zeros of an integer-part digit list, keeping at least one
digit ("007" becomes "7", "000" and "" become "0"). -/
def normIntPart (l : List Char) : List Char :=
  match List.dropWhile (fun c => c = '0') l with
  | [] => ['0']
  | r => r

/-- Drop trailing zeros of a fractional-part digit list, keeping at least
one digit ("140" becomes "14", "00" and "" become "0"). -/
def normFracPart (l : List Char) : List Char :=
  match List.dropWhile (fun c => c = '0') (List.reverse l) with
  | [] => ['0']
  | r => List.reverse r

/-- Model of Python float(s) on plain decimal literals containing a point,
returning the canonical repr string of the resulting float. -/
def pyFloat? (s : String) : Option String :=
  match stripUnderscores s.data with
  | none => none
  | some l =>
    match splitSign l with
    | (neg, body) =>
      match splitOnChar '.' body with
      | [ip, fp] =>
        if (ip ++ fp) ≠ [] && (ip ++ fp).all Char.isDigit then
          some (String.mk ((if neg then ['-'] else []) ++
            normIntPart ip ++ ['.'] ++ normFracPart fp))
        else none
      | _ => none

/-! SHA-256 (FIPS 180-4) over byte lists, with 32-bit words as natural
numbers reduced modulo 2^32. -/

/-- Reduce modulo 2^32. -/
def w32 (n : Nat) : Nat := n % 4294967296

/-- Right rotation of a 32-bit word. -/
def rotr (x n : Nat) : Nat := w32 ((x >>> n) ||| (x <<< (32 - n)))

/-- Choice function of the compression rounds. -/
def ch (x y z : Nat) : Nat := (x &&& y) ^^^ ((4294967295 ^^^ x) &&& z)

/-- Majority function of the compression rounds. -/
def maj (x y z : Nat) : Nat := (x &&& y) ^^^ (x &&& z) ^^^ (y &&& z)

/-- Big sigma-0 of the compression rounds. -/
def bsig0 (x : Nat) : Nat := rotr x 2 ^^^ rotr x 13 ^^^ rotr x 22

/-- Big sigma-1 of the compression rounds. -/
def bsig1 (x : Nat) : Nat := rotr x 6 ^^^ rotr x 11 ^^^ rotr x 25

/-- Small sigma-0 of the message schedule. -/
def ssig0 (x : Nat) : Nat := rotr x 7 ^^^ rotr x 18 ^^^ (x >>> 3)

/-- Small sigma-1 of the message schedule. -/
def ssig1 (x : Nat) : Nat := rotr x 17 ^^^ rotr x 19 ^^^ (x >>> 10)

/-- Round constants, in decimal. -/
def K256 : List Nat :=
  [1116352408, 1899447441, 3049323471, 3921009573, 961987163, 1508970993,
   2453635748, 2870763221, 3624381080, 310598401, 607225278, 1426881987,
   1925078388, 2162078206, 2614888103, 3248222580, 3835390401, 4022224774,
   264347078, 604807628, 770255983, 1249150122, 1555081692, 1996064986,
   2554220882, 2821834349, 2952996808, 3210313671, 3336571891, 3584528711,
   113926993, 338241895, 666307205, 773529912, 1294757372, 1396182291,
   1695183700, 1986661051, 2177026350, 2456956037, 2730485921, 2820302411,
   3259730800, 3345764771, 3516065817, 3600352804, 4094571909, 275423344,
   430227734, 506948616, 659060556, 883997877, 958139571, 1322822218,
   1537002063, 1747873779, 1955562222, 2024104815, 2227730452, 2361852424,
   2428436474, 2756734187, 3204031479, 3329325298]

/-- Working state of the compression function. -/
structure Hash8 where
  a : Nat
  b : Nat
  c : Nat
  d : Nat
  e : Nat
  f : Nat
  g : Nat
  h : Nat
deriving DecidableEq

/-- Initial hash value, in decimal. -/
def initH : Hash8 :=
  ⟨1779033703, 3144134277, 1013904242, 2773480762,
   1359893119, 2600822924, 528734635, 1541459225⟩

/-- Extend the message schedule: the accumulator holds the words produced
so far, most recent first; each step prepends one new word. -/
def extendSchedule : Nat → List Nat → List Nat
  | 0, acc => acc
  | n + 1, acc =>
    let w := w32 (ssig1 (acc.getD 1 0) + acc.getD 6 0 +
                  ssig0 (acc.getD 14 0) + acc.getD 15 0)
    extendSchedule n (w :: acc)

/-- Full 64-word message schedule of one block (given as 16 words). -/
def schedule (block : List Nat) : List Nat :=
  List.reverse (extendSchedule 48 (List.reverse block))

/-- One compression round, consuming a (round constant, schedule word)
pair. -/
def round (st : Hash8) (kw : Nat × Nat) : Hash8 :=
  let t1 := w32 (st.h + bsig1 st.e + ch st.e st.f st.g + kw.1 + kw.2)
  let t2 := w32 (bsig0 st.a + maj st.a st.b st.c)
  ⟨w32 (t1 + t2), st.a, st.b, st.c, w32 (st.d + t1), st.e, st.f, st.g⟩

/-- Compress one 512-bit block (16 big-endian words) into the hash
state. -/
def compressBlock (h0 : Hash8) (block : List Nat) : Hash8 :=
  let st := List.foldl round h0 (List.zip K256 (schedule block))
  ⟨w32 (h0.a + st.a), w32 (h0.b + st.b), w32 (h0.c + st.c), w32 (h0.d + st.d),
   w32 (h0.e + st.e), w32 (h0.f + st.f), w32 (h0.g + st.g), w32 (h0.h + st.h)⟩

/-- Group a byte list into 32-bit big-endian words. -/
def toWords : List Nat → List Nat
  | b0 :: b1 :: b2 :: b3 :: rest =>
    (((b0 * 256 + b1) * 256 + b2) * 256 + b3) :: toWords rest
  | _ => []

/-- Group a list into chunks of 16 words (one per 512-bit block). -/
def chunks16 : Nat → List Nat → List (List Nat)
  | _, [] => []
  | 0, _ => []
  | fuel + 1, l => List.take 16 l :: chunks16 fuel (List.drop 16 l)

/-- Big-endian 8-byte encoding of the message bit length. -/
def be64 (n : Nat) : List Nat :=
  [(n >>> 56) &&& 255, (n >>> 48) &&& 255, (n >>> 40) &&& 255,
   (n >>> 32) &&& 255, (n >>> 24) &&& 255, (n >>> 16) &&& 255,
   (n >>> 8) &&& 255, n &&& 255]

/-- SHA-256 padding: a 0x80 byte, zeros to 56 mod 64, then the bit length. -/
def padMessage (msg : List Nat) : List Nat :=
  let len := msg.length
  let zeros := (119 - len % 64) % 64
  msg ++ [0x80] ++ List.replicate zeros 0 ++ be64 (8 * len)

/-- Big-endian 4-byte serialization of a 32-bit word. -/
def word32be (w : Nat) : List Nat :=
  [(w >>> 24) &&& 255, (w >>> 16) &&& 255, (w >>> 8) &&& 255, w &&& 255]

/-- SHA-256 digest (32 bytes) of a byte list. -/
def sha256 (msg : List Nat) : List Nat :=
  let padded := padMessage msg
  let blocks := chunks16 padded.length (toWords padded)
  let hf := List.foldl compressBlock initH blocks
  word32be hf.a ++ word32be hf.b ++ word32be hf.c ++ word32be hf.d ++
  word32be hf.e ++ word32be hf.f ++ word32be hf.g ++ word32be hf.h

/-- UTF-8 encoding of a single character. -/
def utf8EncodeChar (c : Char) : List Nat :=
  let n := c.toNat
  if n < 0x80 then [n]
  else if n < 0x800 then
    [0xC0 ||| (n >>> 6), 0x80 ||| (n &&& 0x3F)]
  else if n < 0x10000 then
    [0xE0 ||| (n >>> 12), 0x80 ||| ((n >>> 6) &&& 0x3F), 0x80 ||| (n &&& 0x3F)]
  else
    [0xF0 ||| (n >>> 18), 0x80 ||| ((n >>> 12) &&& 0x3F),
     0x80 ||| ((n >>> 6) &&& 0x3F), 0x80 ||| (n &&& 0x3F)]

/-- UTF-8 encoding of a character list (Python s.encode of utf-8). -/
def utf8Encode : List Char → List Nat
  | [] => []
  | c :: cs => utf8EncodeChar c ++ utf8Encode cs

/-- Standard base64 alphabet. -/
def b64Alphabet : List Char :=
  "ABCDEFGHIJKLMNOPQRSTUVWXYZabcdefghijklmnopqrstuvwxyz0123456789+/".data

/-- Character of a 6-bit group. -/
def b64Char (n : Nat) : Char := b64Alphabet.getD n 'A'

/-- Standard base64 encoding with padding (Python base64.b64encode). -/
def b64encode : List Nat → List Char
  | [] => []
  | [x] =>
    [b64Char (x >>> 2), b64Char ((x &&& 3) <<< 4), '=', '=']
  | [x, y] =>
    [b64Char (x >>> 2), b64Char (((x &&& 3) <<< 4) ||| (y >>> 4)),
     b64Char ((y &&& 15) <<< 2), '=']
  | x :: y :: z :: rest =>
    b64Char (x >>> 2) :: b64Char (((x &&& 3) <<< 4) ||| (y >>> 4)) ::
    b64Char (((y &&& 15) <<< 2) ||| (z >>> 6)) :: b64Char (z &&& 63) ::
    b64encode rest

/-! The embedded functions of api/utils/filename_utils.py. -/

/-- Comparison used by Python sorted(params.items()): tuples are compared
componentwise, and since dict keys are unique the key comparison always
decides, so the relation is comparison of keys. -/
def keyLe (p q : String × PyVal) : Prop := p.1 ≤ q.1

instance : DecidableRel keyLe := fun p q => inferInstanceAs (Decidable (p.1 ≤ q.1))

/-- Python sorted(params.items()): a stable sort by key. -/
def sortParams (params : ParameterSet) : ParameterSet :=
  List.insertionSort keyLe params

/-- Embedding of generate_hash_from_params. -/
def generate_hash_from_params (model_type : String) (params : ParameterSet) : String :=
  let sorted_params := sortParams params
  let param_parts := List.map (fun kv => kv.1 ++ "=" ++ pyStr kv.2) sorted_params
  let param_str := model_type ++ ":" ++ pyJoin ";" param_parts
  let hash_bytes := sha256 (utf8Encode param_str.data)
  let hash_encoded := String.mk (b64encode hash_bytes)
  let hash_clean :=
    pyReplace (pyReplace (pyReplace hash_encoded "/" "_") "+" "_") "=" "_"
  String.mk (List.take 10 hash_clean.data)

/-- Embedding of encode_param_value. -/
def encode_param_value (value : PyVal) : String :=
  match value with
  | .vNone => ""
  | v =>
    pyReplace (pyReplace (pyReplace (pyStr v) "." "_dot_") "/" "_slash_")
      "\\" "_backslash_"

/-- Embedding of decode_param_value. -/
def decode_param_value (value_str : String) : PyVal :=
  if value_str = "" then .vStr ""
  else
    let decoded :=
      pyReplace (pyReplace (pyReplace value_str "_dot_" ".") "_slash_" "/")
        "_backslash_" "\\"
    if '.' ∈ decoded.data then
      match pyFloat? decoded with
      | some f => .vFloat f
      | none => .vStr decoded
    else
      match pyInt? decoded with
      | some n => .vInt n
      | none => .vStr decoded

/-- Embedding of base_filename. -/
def base_filename (filename : String) : String :=
  if '.' ∈ filename.data then String.mk (beforeLast '.' filename.data)
  else filename

/-- Embedding of extract_model_type. -/
def extract_model_type (filename : String) : String :=
  let base := base_filename filename
  if '-' ∈ base.data then String.mk (splitFirst '-' base.data).1
  else base

/-- Embedding of generate_model_filename. -/
def generate_model_filename (model_type : String) (params : ParameterSet) : String :=
  let filtered_params := List.filter
    (fun kv => !(pyStartsWith kv.1 "position" || pyStartsWith kv.1 "position_"))
    params
  let param_hash := generate_hash_from_params model_type filtered_params
  model_type ++ "-" ++ param_hash

/-- Loop body of parse_params_from_filename: a candidate segment with an
equals sign is split at its first equals sign and inserted, any other
segment is skipped. -/
def parseStep (params : ParameterSet) (pair : List Char) : ParameterSet :=
  if '=' ∈ pair then
    let kv := splitFirst '=' pair
    dictInsert params (String.mk kv.1) (decode_param_value (String.mk kv.2))
  else params

/-- Embedding of parse_params_from_filename. -/
def parse_params_from_filename (filename : String) : ParameterSet :=
  let base := base_filename filename
  if '-' ∈ base.data then
    let params_part := (splitFirst '-' base.data).2
    let param_pairs := splitOnChar '_' params_part
    List.foldl parseStep [] param_pairs
  else []

/-- Key-value pair decoded from one candidate segment, none for a skipped
segment; parseStep is insertion of this. -/
def pairToKV (pair : List Char) : Option (String × PyVal) :=
  if '=' ∈ pair then
    some (String.mk (splitFirst '=' pair).1,
      decode_param_value (String.mk (splitFirst '=' pair).2))
  else none

/-- Decoded key-value candidates of a filename in segment order, before
dict insertion resolves duplicate keys. -/
def parseCandidates (filename : String) : List (String × PyVal) :=
  let base := base_filename filename
  if '-' ∈ base.data then
    List.filterMap pairToKV (splitOnChar '_' (splitFirst '-' base.data).2)
  else []

/-- Strict form of the sorting comparison: strictly smaller key. -/
def keyLt (p q : String × PyVal) : Prop := p.1 < q.1

instance : IsTotal (String × PyVal) keyLe := ⟨fun a b => le_total a.1 b.1⟩

instance : IsTrans (String × PyVal) keyLe := ⟨fun _ _ _ h1 h2 => le_trans h1 h2⟩

instance : IsAntisymm (String × PyVal) keyLt :=
  ⟨fun _ _ h1 h2 => absurd h1 (lt_asymm h2)⟩

/-! Spec-side definitions, written from the words of the claims, to be
compared with the embedded code. -/

/-- Character substitution described by claim C1: the filesystem-unsafe
base64 characters become underscores. -/
def specSubst (c : Char) : Char :=
  if c = '/' ∨ c = '+' ∨ c = '=' then '_' else c

/-- Identifier as worded by claim C1: model_type, a hyphen, and the first
10 characters of the substituted standard base64 encoding of the SHA-256
digest of the UTF-8 bytes of model_type, a colon, and the semicolon-joined
key=value pairs of the position-filtered parameters sorted by key. -/
def spec_identifier (model_type : String) (params : ParameterSet) : String :=
  let filtered := List.filter (fun kv => !(pyStartsWith kv.1 "position")) params
  let s := pyJoin ";"
    (List.map (fun kv => kv.1 ++ "=" ++ pyStr kv.2) (sortParams filtered))
  let digest := sha256 (utf8Encode (model_type ++ ":" ++ s).data)
  let h := List.take 10 (List.map specSubst (b64encode digest))
  model_type ++ "-" ++ String.mk h

/-- Join segments with a separator character. -/
def joinSegs (c : Char) : List (List Char) → List Char
  | [] => []
  | [s] => s
  | s :: rest => s ++ c :: joinSegs c rest

/-- Model type as worded by claim C7: strip the extension (the part after
the last dot, when a dot occurs), then take the part before the first
hyphen, which is the whole base name when no hyphen occurs. -/
def spec_extract_model_type (filename : String) : String :=
  let base :=
    if '.' ∈ filename.data then
      joinSegs '.' (List.dropLast (splitOnChar '.' filename.data))
    else filename.data
  String.mk (List.takeWhile (fun c => c ≠ '-') base)

/-! Supporting lemmas. -/

/-- A check for a longer pattern subsumes the check for its prefix. -/
theorem listStartsWith_append (p q : List Char) :
    ∀ l, listStartsWith (p ++ q) l = true → listStartsWith p l = true := by
  induction p with
  | nil => intro l _; rfl
  | cons a as ih =>
    intro l h
    cases l with
    | nil => simp [listStartsWith] at h
    | cons b bs =>
      simp only [List.cons_append, listStartsWith, Bool.and_eq_true] at h ⊢
      exact ⟨h.1, ih bs h.2⟩

/-- A string starting with the literal position_ starts with position. -/
theorem pyStartsWith_position (s : String)
    (h : pyStartsWith s "position_" = true) :
    pyStartsWith s "position" = true := by
  have hd : ("position_" : String).data = ("position" : String).data ++ ['_'] := rfl
  unfold pyStartsWith at h ⊢
  rw [hd] at h
  exact listStartsWith_append _ _ _ h

/-- The redundant second disjunct of the position filter collapses. -/
theorem position_filter_eq (kv : String × PyVal) :
    (!(pyStartsWith kv.1 "position" || pyStartsWith kv.1 "position_")) =
      (!(pyStartsWith kv.1 "position")) := by
  cases h : pyStartsWith kv.1 "position_" with
  | false => cases pyStartsWith kv.1 "position" <;> simp [h]
  | true => simp [h, pyStartsWith_position kv.1 h]

/-- Replacement of one character by one character is a pointwise map. -/
theorem replaceCore_single (c c' : Char) :
    ∀ (fuel : Nat) (l : List Char), l.length ≤ fuel →
      replaceCore [c] [c'] fuel l =
        List.map (fun x => if x = c then c' else x) l := by
  intro fuel
  induction fuel with
  | zero =>
    intro l h
    have hl : l = [] := List.eq_nil_of_length_eq_zero (Nat.le_zero.mp h)
    subst hl; rfl
  | succ n ih =>
    intro l h
    cases l with
    | nil => rfl
    | cons x xs =>
      have hxs : xs.length ≤ n := Nat.le_of_succ_le_succ h
      by_cases hx : x = c
      · subst hx
        simp [replaceCore, listStartsWith, ih xs hxs]
      · simp [replaceCore, listStartsWith, hx, Ne.symm hx, ih xs hxs]

/-- String version of the single-character replacement lemma. -/
theorem pyReplace_single (s pat rep : String) (c c' : Char)
    (hp : pat.data = [c]) (hr : rep.data = [c']) :
    pyReplace s pat rep =
      String.mk (List.map (fun x => if x = c then c' else x) s.data) := by
  unfold pyReplace
  rw [hp, hr, replaceCore_single c c' s.data.length s.data (Nat.le_refl _)]

/-- The three sequential unsafe-character replacements compose to the
substitution described by the claim. -/
theorem subst_comp (x : Char) :
    (fun a => if a = '=' then '_' else a)
      ((fun a => if a = '+' then '_' else a)
        ((fun a => if a = '/' then '_' else a) x)) = specSubst x := by
  unfold specSubst
  by_cases h1 : x = '/'
  · subst h1; simp
  · by_cases h2 : x = '+'
    · subst h2; simp
    · by_cases h3 : x = '='
      · subst h3; simp
      · simp [h1, h2, h3]

/-- Taking while a character is absent keeps the whole list. -/
theorem takeWhile_of_not_mem (c : Char) :
    ∀ l : List Char, c ∉ l → List.takeWhile (fun x => x ≠ c) l = l := by
  intro l
  induction l with
  | nil => intro _; rfl
  | cons x xs ih =>
    intro h
    simp only [List.mem_cons, not_or] at h
    have hx : x ≠ c := Ne.symm h.1
    rw [List.takeWhile_cons, if_pos (by simp [hx]), ih h.2]

/-- Dropping while a character is absent skips a first part without it. -/
theorem dropWhile_append_all (c : Char) (b : List Char) :
    ∀ a : List Char, c ∉ a →
      List.dropWhile (fun x => x ≠ c) (a ++ b) =
        List.dropWhile (fun x => x ≠ c) b := by
  intro a
  induction a with
  | nil => intro _; rfl
  | cons x xs ih =>
    intro h
    simp only [List.mem_cons, not_or] at h
    have hx : x ≠ c := Ne.symm h.1
    rw [List.cons_append, List.dropWhile_cons, if_pos (by simp [hx]), ih h.2]

/-- The part before the last occurrence of a character, computed from the
reversed list, recovers the prefix of the last-occurrence decomposition. -/
theorem beforeLast_append (c : Char) (l₁ l₂ : List Char) (h : c ∉ l₂) :
    beforeLast c (l₁ ++ c :: l₂) = l₁ := by
  unfold beforeLast
  rw [List.reverse_append, List.reverse_cons, List.append_assoc,
    dropWhile_append_all c _ _ (by simpa using h)]
  simp [List.dropWhile_cons]

/-- Splitting never yields an empty segment list. -/
theorem splitOnChar_ne_nil (c : Char) (l : List Char) : splitOnChar c l ≠ [] := by
  cases l with
  | nil => simp [splitOnChar]
  | cons x xs =>
    unfold splitOnChar
    cases splitOnChar c xs with
    | nil => simp
    | cons s t => cases hx : x == c <;> simp [hx]

/-- Splitting on an absent character yields the single whole segment. -/
theorem splitOnChar_of_not_mem (c : Char) :
    ∀ m : List Char, c ∉ m → splitOnChar c m = [m] := by
  intro m
  induction m with
  | nil => intro _; rfl
  | cons x xs ih =>
    intro h
    simp only [List.mem_cons, not_or] at h
    have hxc : (x == c) = false := beq_eq_false_iff_ne.mpr (Ne.symm h.1)
    unfold splitOnChar
    rw [ih h.2]
    simp [hxc]

/-- Splitting on a present character yields at least two segments. -/
theorem splitOnChar_of_mem (c : Char) :
    ∀ m : List Char, c ∈ m →
      ∃ s t, splitOnChar c m = s :: t ∧ t ≠ [] := by
  intro m
  induction m with
  | nil => intro h; exact absurd h (List.not_mem_nil c)
  | cons x xs ih =>
    intro h
    by_cases hx : x = c
    · subst hx
      unfold splitOnChar
      cases hs : splitOnChar x xs with
      | nil => exact absurd hs (splitOnChar_ne_nil _ _)
      | cons s t => exact ⟨[], s :: t, by simp, by simp⟩
    · have hc : c ∈ xs := by
        cases List.mem_cons.mp h with
        | inl h' => exact absurd h'.symm hx
        | inr h' => exact h'
      obtain ⟨s, t, hst, ht⟩ := ih hc
      have hxc : (x == c) = false := beq_eq_false_iff_ne.mpr hx
      unfold splitOnChar
      rw [hst]
      exact ⟨x :: s, t, by simp [hxc], ht⟩

/-- Joining after prepending a character to the head segment prepends the
character to the join. -/
theorem joinSegs_cons_cons (c x : Char) (s : List Char) (d : List (List Char)) :
    joinSegs c ((x :: s) :: d) = x :: joinSegs c (s :: d) := by
  cases d <;> rfl

/-- Joining with an empty head segment emits a separator. -/
theorem joinSegs_nil_cons (c : Char) (d : List (List Char)) (h : d ≠ []) :
    joinSegs c ([] :: d) = c :: joinSegs c d := by
  cases d with
  | nil => exact absurd rfl h
  | cons s t => rfl

/-- Joining all but the last segment of a split recovers the prefix of the
last-occurrence decomposition. -/
theorem joinSegs_dropLast_split (c : Char) (l₂ : List Char) (h2 : c ∉ l₂) :
    ∀ l₁, joinSegs c (List.dropLast (splitOnChar c (l₁ ++ c :: l₂))) = l₁ := by
  intro l₁
  induction l₁ with
  | nil =>
    rw [List.nil_append]
    unfold splitOnChar
    rw [splitOnChar_of_not_mem c l₂ h2]
    simp [joinSegs]
  | cons x rest ih =>
    have hcmem : c ∈ rest ++ c :: l₂ :=
      List.mem_append_right _ (List.mem_cons_self c l₂)
    obtain ⟨s, t, hst, ht⟩ := splitOnChar_of_mem c _ hcmem
    have hd : List.dropLast (s :: t) = s :: List.dropLast t :=
      List.dropLast_cons_of_ne_nil ht
    have hih : joinSegs c (s :: List.dropLast t) = rest := by
      rw [← hd, ← hst]; exact ih
    rw [List.cons_append]
    unfold splitOnChar
    rw [hst]
    by_cases hx : x = c
    · subst hx
      simp only [beq_self_eq_true, if_true]
      rw [@List.dropLast_cons_of_ne_nil _ [] (s :: t) (List.cons_ne_nil s t), hd,
        joinSegs_nil_cons x _ (List.cons_ne_nil s t.dropLast), hih]
    · have hxc : (x == c) = false := beq_eq_false_iff_ne.mpr hx
      simp only [hxc, Bool.false_eq_true, if_false]
      rw [List.dropLast_cons_of_ne_nil ht, joinSegs_cons_cons, hih]

/-- Every list containing a character splits at its last occurrence. -/
theorem exists_last_split (c : Char) :
    ∀ l : List Char, c ∈ l → ∃ l₁ l₂, l = l₁ ++ c :: l₂ ∧ c ∉ l₂ := by
  intro l
  induction l with
  | nil => intro h; exact absurd h (List.not_mem_nil c)
  | cons x xs ih =>
    intro h
    by_cases hxs : c ∈ xs
    · obtain ⟨l₁, l₂, he, hn⟩ := ih hxs
      exact ⟨x :: l₁, l₂, by rw [he, List.cons_append], hn⟩
    · have hx : x = c := by
        cases List.mem_cons.mp h with
        | inl h' => exact h'.symm
        | inr h' => exact absurd h' hxs
      exact ⟨[], xs, by rw [hx, List.nil_append], hxs⟩

/-- Length of a packed string is the length of its character list. -/
theorem length_mk (l : List Char) : (String.mk l).length = l.length := rfl

/-- The base64 encoding of any SHA-256 digest has 44 characters. -/
theorem length_b64encode_sha256 (msg : List Nat) :
    (b64encode (sha256 msg)).length = 44 := by
  simp only [sha256, word32be, List.cons_append, List.nil_append]
  simp [b64encode]

/-- Insertion sort by key is strictly sorted when the keys are distinct. -/
theorem sorted_keyLt_sortParams (p : ParameterSet)
    (hnd : (List.map Prod.fst p).Nodup) :
    List.Sorted keyLt (sortParams p) := by
  have hle : List.Sorted keyLe (sortParams p) := List.sorted_insertionSort keyLe p
  have hndp : (List.map Prod.fst (sortParams p)).Nodup :=
    ((List.perm_insertionSort keyLe p).map Prod.fst).nodup_iff.mpr hnd
  have hne : List.Pairwise (fun a b : String × PyVal => a.1 ≠ b.1) (sortParams p) :=
    List.pairwise_map.mp hndp
  exact (hle.and hne).imp (fun h => lt_of_le_of_ne h.1 h.2)

/-- Sorting by key maps permutations with distinct keys to one list. -/
theorem sortParams_eq_of_perm (p q : ParameterSet) (hpq : p.Perm q)
    (hnd : (List.map Prod.fst p).Nodup) : sortParams p = sortParams q := by
  have hndq : (List.map Prod.fst q).Nodup := ((hpq.map Prod.fst).nodup_iff).mp hnd
  exact List.eq_of_perm_of_sorted
    ((List.perm_insertionSort keyLe p).trans
      (hpq.trans (List.perm_insertionSort keyLe q).symm))
    (sorted_keyLt_sortParams p hnd) (sorted_keyLt_sortParams q hndq)

/-- A key absent from the key list is never found. -/
theorem find_none_of_not_mem_keys (k : String) :
    ∀ d : ParameterSet, k ∉ List.map Prod.fst d →
      List.find? (fun p => decide (p.1 = k)) d = none := by
  intro d
  induction d with
  | nil => intro _; rfl
  | cons p rest ih =>
    intro h
    simp only [List.map_cons, List.mem_cons, not_or] at h
    rw [List.find?_cons]
    have hp : (decide (p.1 = k)) = false := by
      simp; exact fun he => h.1 he.symm
    rw [hp]
    exact ih h.2

/-- Replacing entries of a different key leaves a lookup unchanged. -/
theorem find_map_replace_ne (k k' : String) (v : PyVal) (hk : k' ≠ k) :
    ∀ d : ParameterSet,
      List.find? (fun p => decide (p.1 = k))
          (List.map (fun p => if p.1 = k' then (k', v) else p) d) =
        List.find? (fun p => decide (p.1 = k)) d := by
  intro d
  induction d with
  | nil => rfl
  | cons p rest ih =>
    by_cases hp : p.1 = k'
    · simp only [List.map_cons, if_pos hp, List.find?_cons]
      have h1 : (decide ((k', v).1 = k)) = false := by simp [hk]
      have h2 : (decide (p.1 = k)) = false := by simp [hp, hk]
      rw [h1, h2]
      exact ih
    · simp only [List.map_cons, if_neg hp, List.find?_cons]
      cases decide (p.1 = k) <;> simp [ih]

/-- Replacing the entries holding a present key makes a lookup of that key
return the replacement value. -/
theorem find_map_replace_eq (k : String) (v : PyVal) :
    ∀ d : ParameterSet, k ∈ List.map Prod.fst d →
      List.find? (fun p => decide (p.1 = k))
          (List.map (fun p => if p.1 = k then (k, v) else p) d) =
        some (k, v) := by
  intro d
  induction d with
  | nil => intro h; simp at h
  | cons p rest ih =>
    intro h
    by_cases hp : p.1 = k
    · simp [List.find?_cons, hp]
    · have hr : k ∈ List.map Prod.fst rest := by
        simp only [List.map_cons, List.mem_cons] at h
        cases h with
        | inl h' => exact absurd h'.symm hp
        | inr h' => exact h'
      simp only [List.map_cons, if_neg hp, List.find?_cons]
      have h2 : (decide (p.1 = k)) = false := by simp [hp]
      rw [h2]
      exact ih hr

/-- Dict lookup after dict insertion: the inserted key now maps to the new
value, all other keys are untouched. -/
theorem dictGet_dictInsert (d : ParameterSet) (k k' : String) (v : PyVal) :
    dictGet k (dictInsert d k' v) =
      if k' = k then some v else dictGet k d := by
  unfold dictGet dictInsert
  by_cases hmem : k' ∈ List.map Prod.fst d
  · rw [if_pos hmem]
    by_cases hk : k' = k
    · subst hk
      rw [find_map_replace_eq k' v d hmem]
      simp
    · rw [find_map_replace_ne k k' v hk d, if_neg hk]
  · rw [if_neg hmem, List.find?_append]
    by_cases hk : k' = k
    · subst hk
      rw [find_none_of_not_mem_keys k' d hmem]
      simp [List.find?_cons]
    · have h1 : (decide ((k', v).1 = k)) = false := by simp [hk]
      simp only [List.find?_cons, h1, List.find?_nil, Option.or_none, if_neg hk]

/-- The parse loop body is insertion of the decoded candidate. -/
theorem parseStep_eq (params : ParameterSet) (pair : List Char) :
    parseStep params pair =
      match pairToKV pair with
      | some kv => dictInsert params kv.1 kv.2
      | none => params := by
  by_cases hp : '=' ∈ pair <;> simp [parseStep, pairToKV, hp]

/-- Folding the parse loop body is folding dict insertion over the decoded
candidates. -/
theorem foldl_parseStep_filterMap (pairs : List (List Char)) :
    ∀ acc : ParameterSet,
      List.foldl parseStep acc pairs =
        List.foldl (fun d kv => dictInsert d kv.1 kv.2) acc
          (List.filterMap pairToKV pairs) := by
  induction pairs with
  | nil => intro _; rfl
  | cons pair rest ih =>
    intro acc
    rw [List.foldl_cons, List.filterMap_cons, parseStep_eq]
    cases hp : pairToKV pair with
    | none => simp only []; exact ih acc
    | some kv => simp only [List.foldl_cons]; exact ih _

/-- Dict lookup after folding insertions: the last inserted value for the
key wins, falling back to the accumulator. -/
theorem dictGet_foldl_insert (k : String) :
    ∀ (kvs : List (String × PyVal)) (acc : ParameterSet),
      dictGet k (List.foldl (fun d kv => dictInsert d kv.1 kv.2) acc kvs) =
        Option.or
          (Option.map Prod.snd
            (List.find? (fun p => decide (p.1 = k)) kvs.reverse))
          (dictGet k acc) := by
  intro kvs
  induction kvs with
  | nil => intro acc; simp
  | cons kv rest ih =>
    intro acc
    rw [List.foldl_cons, ih, List.reverse_cons, List.find?_append,
      dictGet_dictInsert]
    by_cases hk : kv.1 = k
    · cases hA : List.find? (fun p => decide (p.1 = k)) rest.reverse <;>
        simp [List.find?_cons, hA, hk]
    · cases hA : List.find? (fun p => decide (p.1 = k)) rest.reverse <;>
        simp [List.find?_cons, hA, hk]

/-- A character absent from both the text and the replacement is absent
from the replacement's output. -/
theorem not_mem_replaceCore (x : Char) (pat rep : List Char) (hr : x ∉ rep) :
    ∀ (fuel : Nat) (l : List Char), x ∉ l → x ∉ replaceCore pat rep fuel l := by
  intro fuel
  induction fuel with
  | zero =>
    intro l hl
    cases l with
    | nil => simp [replaceCore]
    | cons c cs => simpa [replaceCore] using hl
  | succ n ih =>
    intro l hl
    cases l with
    | nil => simp [replaceCore]
    | cons c cs =>
      simp only [List.mem_cons, not_or] at hl
      simp only [replaceCore]
      split
      · intro hmem
        rcases List.mem_append.mp hmem with h | h
        · exact hr h
        · refine ih _ (fun hm => ?_) h
          rcases List.mem_cons.mp (List.drop_subset _ _ hm) with h2 | h2
          · exact hl.1 h2
          · exact hl.2 h2
      · intro hmem
        rcases List.mem_cons.mp hmem with h | h
        · exact hl.1 h
        · exact ih cs hl.2 h

/-- A single-character replacement whose replacement text avoids the
pattern character eliminates it. -/
theorem not_mem_replaceCore_single (c : Char) (rep : List Char) (hr : c ∉ rep) :
    ∀ (fuel : Nat) (l : List Char), l.length ≤ fuel →
      c ∉ replaceCore [c] rep fuel l := by
  intro fuel
  induction fuel with
  | zero =>
    intro l h
    have hl : l = [] := List.eq_nil_of_length_eq_zero (Nat.le_zero.mp h)
    subst hl; simp [replaceCore]
  | succ n ih =>
    intro l h
    cases l with
    | nil => simp [replaceCore]
    | cons a as =>
      have has : as.length ≤ n := Nat.le_of_succ_le_succ h
      simp only [replaceCore]
      by_cases hac : c = a
      · subst hac
        rw [if_pos (by simp [listStartsWith])]
        intro hmem
        rcases List.mem_append.mp hmem with hm | hm
        · exact hr hm
        · exact ih as has (by simpa using hm)
      · rw [if_neg (by simp [listStartsWith, hac])]
        intro hmem
        rcases List.mem_cons.mp hmem with hm | hm
        · exact hac hm
        · exact ih as has hm

/-- A single-character replacement leaves a text without the pattern
character unchanged. -/
theorem replaceCore_single_fix (c : Char) (rep : List Char) :
    ∀ (fuel : Nat) (l : List Char), c ∉ l → replaceCore [c] rep fuel l = l := by
  intro fuel
  induction fuel with
  | zero => intro l _; cases l <;> rfl
  | succ n ih =>
    intro l hl
    cases l with
    | nil => rfl
    | cons a as =>
      simp only [List.mem_cons, not_or] at hl
      simp only [replaceCore]
      rw [if_neg (by simp [listStartsWith, hl.1]), ih as hl.2]

/-- A replacement whose pattern starts with a character absent from the
text leaves the text unchanged. -/
theorem replaceCore_head_fix (p : Char) (ps rep : List Char) :
    ∀ (fuel : Nat) (l : List Char), p ∉ l →
      replaceCore (p :: ps) rep fuel l = l := by
  intro fuel
  induction fuel with
  | zero => intro l _; cases l <;> rfl
  | succ n ih =>
    intro l hl
    cases l with
    | nil => rfl
    | cons a as =>
      simp only [List.mem_cons, not_or] at hl
      simp only [replaceCore]
      rw [if_neg (by simp [listStartsWith, hl.1]), ih as hl.2]

/-- String form of the absence-preservation lemma. -/
theorem not_mem_pyReplace (x : Char) (s pat rep : String)
    (hs : x ∉ s.data) (hr : x ∉ rep.data) :
    x ∉ (pyReplace s pat rep).data :=
  not_mem_replaceCore x pat.data rep.data hr s.data.length s.data hs

/-- String form of the pattern-elimination lemma. -/
theorem not_mem_pyReplace_single (c : Char) (s pat rep : String)
    (hp : pat.data = [c]) (hr : c ∉ rep.data) :
    c ∉ (pyReplace s pat rep).data := by
  show c ∉ replaceCore pat.data rep.data s.data.length s.data
  rw [hp]
  exact not_mem_replaceCore_single c rep.data hr s.data.length s.data
    (Nat.le_refl _)

/-- String form of the single-character fixpoint lemma. -/
theorem pyReplace_fix_single (c : Char) (s pat rep : String)
    (hp : pat.data = [c]) (hs : c ∉ s.data) : pyReplace s pat rep = s := by
  unfold pyReplace
  rw [hp, replaceCore_single_fix c rep.data s.data.length s.data hs]

/-- String form of the pattern-head fixpoint lemma. -/
theorem pyReplace_fix_head (p : Char) (s pat rep : String) (ps : List Char)
    (hp : pat.data = p :: ps) (hs : p ∉ s.data) : pyReplace s pat rep = s := by
  unfold pyReplace
  rw [hp, replaceCore_head_fix p ps rep.data s.data.length s.data hs]

/-- The encoder's replacement chain never outputs a dot, slash or
backslash. -/
theorem chain_no_special (s : String) :
    '.' ∉ (pyReplace (pyReplace (pyReplace s "." "_dot_") "/" "_slash_")
        "\\" "_backslash_").data ∧
    '/' ∉ (pyReplace (pyReplace (pyReplace s "." "_dot_") "/" "_slash_")
        "\\" "_backslash_").data ∧
    '\\' ∉ (pyReplace (pyReplace (pyReplace s "." "_dot_") "/" "_slash_")
        "\\" "_backslash_").data := by
  refine ⟨?_, ?_, ?_⟩
  · exact not_mem_pyReplace '.' _ _ _
      (not_mem_pyReplace '.' _ _ _
        (not_mem_pyReplace_single '.' s "." "_dot_" rfl (by decide))
        (by decide))
      (by decide)
  · exact not_mem_pyReplace '/' _ _ _
      (not_mem_pyReplace_single '/' _ "/" "_slash_" rfl (by decide))
      (by decide)
  · exact not_mem_pyReplace_single '\\' _ "\\" "_backslash_" rfl (by decide)

/-- The encoder output never contains a dot, slash or backslash. -/
theorem encode_no_special (v : PyVal) :
    '.' ∉ (encode_param_value v).data ∧ '/' ∉ (encode_param_value v).data ∧
      '\\' ∉ (encode_param_value v).data := by
  cases v with
  | vNone => simp [encode_param_value]
  | vInt n => exact chain_no_special (pyStr (PyVal.vInt n))
  | vFloat r => exact chain_no_special (pyStr (PyVal.vFloat r))
  | vStr s => exact chain_no_special (pyStr (PyVal.vStr s))

/-- The encoder's replacement chain fixes a string free of dots, slashes
and backslashes. -/
theorem encode_chain_fix (s : String) (h1 : '.' ∉ s.data) (h2 : '/' ∉ s.data)
    (h3 : '\\' ∉ s.data) :
    pyReplace (pyReplace (pyReplace s "." "_dot_") "/" "_slash_")
      "\\" "_backslash_" = s := by
  rw [pyReplace_fix_single '.' s "." "_dot_" rfl h1,
      pyReplace_fix_single '/' s "/" "_slash_" rfl h2,
      pyReplace_fix_single '\\' s "\\" "_backslash_" rfl h3]

/-- The decoder's replacement chain fixes an underscore-free string. -/
theorem decode_chain_fix (s : String) (h : '_' ∉ s.data) :
    pyReplace (pyReplace (pyReplace s "_dot_" ".") "_slash_" "/")
      "_backslash_" "\\" = s := by
  rw [pyReplace_fix_head '_' s "_dot_" "." ['d', 'o', 't', '_'] rfl h,
      pyReplace_fix_head '_' s "_slash_" "/" ['s', 'l', 'a', 's', 'h', '_'] rfl h,
      pyReplace_fix_head '_' s "_backslash_" "\\"
        ['b', 'a', 'c', 'k', 's', 'l', 'a', 's', 'h', '_'] rfl h]

/-- Decoding an underscore-free, dot-free string yields an integer or that
very string. -/
theorem decode_int_or_str (str : String) (hu : '_' ∉ str.data)
    (hd : '.' ∉ str.data) :
    (∃ n : Int, decode_param_value str = PyVal.vInt n) ∨
      decode_param_value str = PyVal.vStr str := by
  by_cases h0 : str = ""
  · subst h0
    exact Or.inr rfl
  · simp only [decode_param_value, if_neg h0, decode_chain_fix str hu, if_neg hd]
    cases hi : pyInt? str with
    | some n => exact Or.inl ⟨n, rfl⟩
    | none => exact Or.inr rfl

/-- Segments produced by splitting never contain the separator. -/
theorem splitOnChar_not_mem_seg (c : Char) :
    ∀ (l seg : List Char), seg ∈ splitOnChar c l → c ∉ seg := by
  intro l
  induction l with
  | nil =>
    intro seg hseg
    simp only [splitOnChar, List.mem_singleton] at hseg
    subst hseg; simp
  | cons x xs ih =>
    intro seg hseg
    rcases hs : splitOnChar c xs with _ | ⟨s, t⟩
    · exact absurd hs (splitOnChar_ne_nil c xs)
    · simp only [splitOnChar, hs] at hseg
      by_cases hx : x == c
      · rw [if_pos hx] at hseg
        rcases List.mem_cons.mp hseg with h | h
        · subst h; simp
        · exact ih seg (hs ▸ h)
      · rw [if_neg hx] at hseg
        rcases List.mem_cons.mp hseg with h | h
        · subst h
          intro hmem
          rcases List.mem_cons.mp hmem with h2 | h2
          · exact hx (by simp [h2])
          · exact ih s (hs ▸ List.mem_cons_self s t) h2
        · exact ih seg (hs ▸ List.mem_cons_of_mem s h)

/-- Segments produced by splitting draw their characters from the split
list. -/
theorem splitOnChar_seg_subset (c : Char) :
    ∀ (l seg : List Char), seg ∈ splitOnChar c l → seg ⊆ l := by
  intro l
  induction l with
  | nil =>
    intro seg hseg
    simp only [splitOnChar, List.mem_singleton] at hseg
    subst hseg; exact List.nil_subset _
  | cons x xs ih =>
    intro seg hseg
    rcases hs : splitOnChar c xs with _ | ⟨s, t⟩
    · exact absurd hs (splitOnChar_ne_nil c xs)
    · simp only [splitOnChar, hs] at hseg
      by_cases hx : x == c
      · rw [if_pos hx] at hseg
        rcases List.mem_cons.mp hseg with h | h
        · subst h; exact List.nil_subset _
        · exact (ih seg (hs ▸ h)).trans (List.subset_cons_self x xs)
      · rw [if_neg hx] at hseg
        rcases List.mem_cons.mp hseg with h | h
        · subst h
          exact List.cons_subset_cons x (ih s (hs ▸ List.mem_cons_self s t))
        · exact (ih seg (hs ▸ List.mem_cons_of_mem s h)).trans
            (List.subset_cons_self x xs)

/-- The value part of a first-equals split draws its characters from the
segment. -/
theorem splitFirst_snd_subset (c : Char) (l : List Char) :
    (splitFirst c l).2 ⊆ l :=
  ((List.tail_sublist _).trans (List.dropWhile_sublist _)).subset

/-- Splitting a list whose single separator sits after one character. -/
theorem splitFirst_cons_cons (c a : Char) (l : List Char) (h : a ≠ c) :
    splitFirst c (a :: c :: l) = ([a], l) := by
  simp [splitFirst, List.takeWhile_cons, List.dropWhile_cons, h]

/-- A decoded candidate's value is the decode of the part of its segment
after the first equals sign. -/
theorem pairToKV_some (seg : List Char) (p : String × PyVal)
    (h : pairToKV seg = some p) :
    p.2 = decode_param_value (String.mk (splitFirst '=' seg).2) := by
  unfold pairToKV at h
  split at h
  · rw [← Option.some.inj h]
  · exact Option.noConfusion h

/-- Digit characters of base-10 printing are decimal digits. -/
theorem digitChar_isDigit (m : Nat) (h : m < 10) :
    (Nat.digitChar m).isDigit = true := by
  interval_cases m <;> decide

/-- The base-10 digit printer emits only decimal digits. -/
theorem toDigitsCore_digits :
    ∀ (fuel n : Nat) (acc : List Char), (∀ c ∈ acc, c.isDigit = true) →
      ∀ c ∈ Nat.toDigitsCore 10 fuel n acc, c.isDigit = true := by
  intro fuel
  induction fuel with
  | zero => intro n acc hacc; simpa [Nat.toDigitsCore] using hacc
  | succ k ih =>
    intro n acc hacc
    have hd : (Nat.digitChar (n % 10)).isDigit = true :=
      digitChar_isDigit _ (Nat.mod_lt n (by decide))
    simp only [Nat.toDigitsCore]
    split
    · intro c hc
      rcases List.mem_cons.mp hc with h | h
      · exact h ▸ hd
      · exact hacc c h
    · refine ih _ _ (fun c hc => ?_)
      rcases List.mem_cons.mp hc with h | h
      · exact h ▸ hd
      · exact hacc c h

/-- Printed natural numbers consist of decimal digits. -/
theorem natRepr_digits (n : Nat) : ∀ c ∈ (Nat.repr n).data, c.isDigit = true := by
  intro c hc
  exact toDigitsCore_digits (n + 1) n [] (by simp) c hc

/-- Printed integers consist of decimal digits and a possible minus
sign. -/
theorem intStr_chars (i : Int) :
    ∀ c ∈ (toString i).data, c.isDigit = true ∨ c = '-' := by
  cases i with
  | ofNat m => exact fun c hc => Or.inl (natRepr_digits m c hc)
  | negSucc m =>
    intro c hc
    have hd : (toString (Int.negSucc m)).data = '-' :: (Nat.repr (m + 1)).data :=
      rfl
    rw [hd] at hc
    rcases List.mem_cons.mp hc with h | h
    · exact Or.inr h
    · exact Or.inl (natRepr_digits (m + 1) c h)

/-- Printed integers contain no dot, slash, backslash or underscore. -/
theorem intStr_no_special (i : Int) :
    '.' ∉ (toString i).data ∧ '/' ∉ (toString i).data ∧
      '\\' ∉ (toString i).data ∧ '_' ∉ (toString i).data := by
  refine ⟨?_, ?_, ?_, ?_⟩ <;>
    exact fun hmem =>
      (intStr_chars i _ hmem).elim (fun h => absurd h (by decide))
        (fun h => absurd h (by decide))

/-- Parsing a filename that embeds one encoded value after key x yields
for x either nothing or the decode of some underscore-free character list
drawn from the parameter section. -/
theorem parse_embedded_value (v : PyVal) :
    dictGet "x" (parse_params_from_filename
        ("t-x=" ++ encode_param_value v)) = none ∨
    ∃ val : List Char,
      val ⊆ 'x' :: '=' :: (encode_param_value v).data ∧ '_' ∉ val ∧
      dictGet "x" (parse_params_from_filename
          ("t-x=" ++ encode_param_value v)) =
        some (decode_param_value (String.mk val)) := by
  have hE := encode_no_special v
  have hfd : ("t-x=" ++ encode_param_value v).data =
      't' :: '-' :: 'x' :: '=' :: (encode_param_value v).data := by
    rw [String.data_append]
    rfl
  have hbase : base_filename ("t-x=" ++ encode_param_value v) =
      "t-x=" ++ encode_param_value v := by
    unfold base_filename
    rw [if_neg ?hdot]
    case hdot =>
      intro hmem
      rw [hfd] at hmem
      rcases List.mem_cons.mp hmem with h | hmem
      · exact absurd h (by decide)
      rcases List.mem_cons.mp hmem with h | hmem
      · exact absurd h (by decide)
      rcases List.mem_cons.mp hmem with h | hmem
      · exact absurd h (by decide)
      rcases List.mem_cons.mp hmem with h | hmem
      · exact absurd h (by decide)
      exact hE.1 hmem
  have hparse : parse_params_from_filename ("t-x=" ++ encode_param_value v) =
      List.foldl parseStep []
        (splitOnChar '_' ('x' :: '=' :: (encode_param_value v).data)) := by
    simp only [parse_params_from_filename, hbase]
    rw [hfd, if_pos (List.mem_cons_of_mem _ (List.mem_cons_self '-' _)),
      splitFirst_cons_cons '-' 't' _ (by decide)]
  rw [hparse, foldl_parseStep_filterMap, dictGet_foldl_insert]
  have hnil : dictGet "x" ([] : ParameterSet) = none := rfl
  rw [hnil]
  cases hf : List.find? (fun p => decide (p.1 = "x"))
      (List.filterMap pairToKV
        (splitOnChar '_' ('x' :: '=' :: (encode_param_value v).data))).reverse with
  | none => exact Or.inl rfl
  | some p =>
    obtain ⟨seg, hseg, hkv⟩ := List.mem_filterMap.mp
      (List.mem_reverse.mp (List.mem_of_find?_eq_some hf))
    refine Or.inr ⟨(splitFirst '=' seg).2, ?_, ?_, ?_⟩
    · exact (splitFirst_snd_subset '=' seg).trans
        (splitOnChar_seg_subset '_' _ seg hseg)
    · exact fun hmem => splitOnChar_not_mem_seg '_' _ seg hseg
        (splitFirst_snd_subset '=' seg hmem)
    · show some p.2 = some (decode_param_value (String.mk (splitFirst '=' seg).2))
      rw [pairToKV_some seg p hkv]

/-! Theorems settling the claims. -/

/-- Claim C1: generate_model_filename returns the model type, a hyphen,
and the first 10 characters of the underscore-substituted standard base64
encoding of the SHA-256 digest of the UTF-8 bytes of the colon-separated
model type and canonical parameter string of the position-filtered,
key-sorted parameters. -/
theorem C1_identifier_formula (model_type : String) (params : ParameterSet) :
    generate_model_filename model_type params =
      spec_identifier model_type params := by
  simp only [generate_model_filename, spec_identifier, generate_hash_from_params]
  rw [show (fun kv : String × PyVal =>
        !(pyStartsWith kv.1 "position" || pyStartsWith kv.1 "position_")) =
      (fun kv : String × PyVal => !(pyStartsWith kv.1 "position")) from
    funext position_filter_eq]
  rw [pyReplace_single _ _ _ '/' '_' rfl rfl,
      pyReplace_single _ _ _ '+' '_' rfl rfl,
      pyReplace_single _ _ _ '=' '_' rfl rfl]
  simp only [List.map_map]
  rw [show ((fun a => if a = '=' then '_' else a) ∘
        (fun a => if a = '+' then '_' else a) ∘
        (fun a => if a = '/' then '_' else a)) = specSubst from
    funext fun x => subst_comp x]

/-- Claim C2: generate_model_filename is insertion-order independent — any
two parameter mappings with the same key-value pairs (same keys, unique
within a dict) produce the identical identifier. -/
theorem C2_order_independence (t : String) (p q : ParameterSet)
    (hperm : p.Perm q) (hnd : (List.map Prod.fst p).Nodup) :
    generate_model_filename t p = generate_model_filename t q := by
  simp only [generate_model_filename, generate_hash_from_params]
  rw [sortParams_eq_of_perm _ _
    (hperm.filter (fun kv =>
      !(pyStartsWith kv.1 "position" || pyStartsWith kv.1 "position_")))
    (hnd.sublist (List.Sublist.map Prod.fst (List.filter_sublist p)))]

/-- Concrete instance discharging the hypotheses of C2. -/
theorem C2_order_independence_witness :
    ([("a", PyVal.vInt 1), ("b", PyVal.vInt 2)] : ParameterSet).Perm
        [("b", PyVal.vInt 2), ("a", PyVal.vInt 1)] ∧
    (List.map Prod.fst
        ([("a", PyVal.vInt 1), ("b", PyVal.vInt 2)] : ParameterSet)).Nodup ∧
    generate_model_filename "t" [("a", PyVal.vInt 1), ("b", PyVal.vInt 2)] =
      generate_model_filename "t" [("b", PyVal.vInt 2), ("a", PyVal.vInt 1)] := by
  have hperm : ([("a", PyVal.vInt 1), ("b", PyVal.vInt 2)] : ParameterSet).Perm
      [("b", PyVal.vInt 2), ("a", PyVal.vInt 1)] :=
    List.Perm.swap ("b", PyVal.vInt 2) ("a", PyVal.vInt 1) []
  have hnd : (List.map Prod.fst
      ([("a", PyVal.vInt 1), ("b", PyVal.vInt 2)] : ParameterSet)).Nodup := by
    decide
  exact ⟨hperm, hnd, C2_order_independence "t" _ _ hperm hnd⟩

/-- Claim C3: adding a fresh position-prefixed key to a parameter mapping
never changes the generated identifier. -/
theorem C3_position_filtered (t : String) (p : ParameterSet) (k : String)
    (v : PyVal) (hpos : pyStartsWith k "position" = true)
    (hnew : k ∉ List.map Prod.fst p) :
    generate_model_filename t (dictInsert p k v) =
      generate_model_filename t p := by
  simp only [generate_model_filename, dictInsert, if_neg hnew]
  rw [List.filter_append]
  simp [hpos]

/-- Concrete instance discharging the hypotheses of C3. -/
theorem C3_position_filtered_witness :
    pyStartsWith "position_x" "position" = true ∧
    "position_x" ∉ List.map Prod.fst ([("radius", PyVal.vInt 5)] : ParameterSet) ∧
    generate_model_filename "cyl"
        (dictInsert [("radius", PyVal.vInt 5)] "position_x" (PyVal.vInt 0)) =
      generate_model_filename "cyl" [("radius", PyVal.vInt 5)] :=
  ⟨by decide, by decide, C3_position_filtered "cyl" _ _ _ (by decide) (by decide)⟩

/-- Claim C4: decode_param_value inverts encode_param_value on the spec's
simple values: the float 3.14 and the string with slash, dot and a single
literal backslash round-trip; the encoded forms witness the substitution
order dot, slash, backslash. -/
theorem C4_encode_decode_roundtrip :
    decode_param_value (encode_param_value (PyVal.vFloat "3.14")) =
      PyVal.vFloat "3.14" ∧
    decode_param_value (encode_param_value (PyVal.vStr "a/b.c\\d")) =
      PyVal.vStr "a/b.c\\d" ∧
    encode_param_value (PyVal.vFloat "3.14") = "3_dot_14" ∧
    encode_param_value (PyVal.vStr "a/b.c\\d") = "a_slash_b_dot_c_backslash_d" := by
  decide

/-- Claim C5: parsing the legacy filename cylinder-radius=5_height=10.obj
yields radius 5 and height 10 as integers, and a candidate segment without
an equals sign is silently skipped. -/
theorem C5_parse_example :
    parse_params_from_filename "cylinder-radius=5_height=10.obj" =
      [("radius", PyVal.vInt 5), ("height", PyVal.vInt 10)] ∧
    parse_params_from_filename "cylinder-radius=5_junk.obj" =
      [("radius", PyVal.vInt 5)] := by
  decide

/-- Claim C6: parse_params_from_filename is a total function of the input
string: when the extension-stripped base name has no hyphen it returns the
empty mapping, and in general a key maps to the value of the last decoded
candidate with that key, so the last occurrence of a duplicate key wins. -/
theorem C6_parse_total_last_wins :
    (∀ s : String, '-' ∉ (base_filename s).data →
        parse_params_from_filename s = []) ∧
    (∀ (s : String) (k : String),
        dictGet k (parse_params_from_filename s) =
          Option.map Prod.snd
            (List.find? (fun p => decide (p.1 = k))
              (parseCandidates s).reverse)) := by
  constructor
  · intro s h
    simp only [parse_params_from_filename, if_neg h]
  · intro s k
    by_cases hc : '-' ∈ (base_filename s).data
    · simp only [parse_params_from_filename, parseCandidates, if_pos hc]
      rw [foldl_parseStep_filterMap, dictGet_foldl_insert]
      cases hA : List.find? (fun p => decide (p.1 = k))
          (List.filterMap pairToKV
            (splitOnChar '_' (splitFirst '-' (base_filename s).data).2)).reverse <;>
        simp [hA, dictGet]
    · simp only [parse_params_from_filename, parseCandidates, if_neg hc]
      simp [dictGet]

/-- Concrete instance discharging the hypothesis of C6, together with a
duplicate-key filename showing that the last occurrence wins. -/
theorem C6_parse_total_last_wins_witness :
    '-' ∉ (base_filename "plainfile.obj").data ∧
    parse_params_from_filename "plainfile.obj" = [] ∧
    parse_params_from_filename "t-x=1_x=2" = [("x", PyVal.vInt 2)] :=
  ⟨by decide, C6_parse_total_last_wins.1 "plainfile.obj" (by decide), by decide⟩

/-- Claim C7: extract_model_type strips the extension after the last dot,
then returns the part of the base name before the first hyphen — the whole
base name when no hyphen occurs — as the spec words it; the two concrete
examples follow. -/
theorem C7_extract_model_type :
    (∀ filename : String,
        extract_model_type filename = spec_extract_model_type filename) ∧
    extract_model_type "washer-abc123.obj" = "washer" ∧
    extract_model_type "plain.obj" = "plain" := by
  refine ⟨?_, by decide, by decide⟩
  intro filename
  simp only [extract_model_type, spec_extract_model_type, base_filename, splitFirst]
  by_cases hdot : '.' ∈ filename.data
  · simp only [hdot, if_true]
    obtain ⟨l₁, l₂, he, hn⟩ := exists_last_split '.' filename.data hdot
    rw [he, beforeLast_append '.' l₁ l₂ hn, joinSegs_dropLast_split '.' l₂ hn l₁]
    by_cases hhy : '-' ∈ l₁
    · simp only [hhy, if_true]
    · simp only [hhy, if_false, takeWhile_of_not_mem '-' l₁ hhy]
  · simp only [hdot, if_false]
    by_cases hhy : '-' ∈ filename.data
    · simp only [hhy, if_true]
    · simp only [hhy, if_false, takeWhile_of_not_mem '-' filename.data hhy]

/-- Claim C8: the washer parameter sets with id 1 and id 2 hash to
distinct identifiers under the concrete SHA-256, base64, truncate-to-10
scheme. -/
theorem C8_distinct_identifiers :
    generate_model_filename "washer" [("id", PyVal.vInt 1)] ≠
      generate_model_filename "washer" [("id", PyVal.vInt 2)] := by
  decide

/-- Claim C9: generate_model_filename performs no model-type validation:
with the empty model type it succeeds on every parameter set and returns a
leading-hyphen identifier, a hyphen followed by the 10-character short
hash. -/
theorem C9_empty_model_type (params : ParameterSet) :
    ∃ h : String, h.length = 10 ∧
      generate_model_filename "" params = "-" ++ h := by
  refine ⟨generate_hash_from_params ""
    (List.filter (fun kv =>
      !(pyStartsWith kv.1 "position" || pyStartsWith kv.1 "position_")) params),
    ?_, ?_⟩
  · simp only [generate_hash_from_params]
    rw [pyReplace_single _ _ _ '/' '_' rfl rfl,
        pyReplace_single _ _ _ '+' '_' rfl rfl,
        pyReplace_single _ _ _ '=' '_' rfl rfl]
    rw [length_mk, List.length_take]
    simp [length_b64encode_sha256]
  · simp only [generate_model_filename]
    apply String.ext
    simp [String.data_append]

/-- Claim C10: parse_params_from_filename splits on underscores before any
escape decoding, so for every value whose encoded form contains an
underscore, embedding the encoding in a legacy filename and parsing it
back never recovers that value (values carry their types, the reading
under which the spec itself calls type-coercing decodes lossy): every
parsed value is the decode of an underscore-free, dot-free segment piece —
an integer or a plain string that the hypothesised value can never equal.
In particular the encoded float 3.14 parses back to the integer 3, not to
3.14, while decode_param_value applied directly to the encoder's output
does recover 3.14. -/
theorem C10_split_before_decode :
    (∀ v : PyVal, '_' ∈ (encode_param_value v).data →
        dictGet "x" (parse_params_from_filename
            ("t-x=" ++ encode_param_value v)) ≠ some v) ∧
    encode_param_value (PyVal.vFloat "3.14") = "3_dot_14" ∧
    parse_params_from_filename "t-x=3_dot_14" = [("x", PyVal.vInt 3)] ∧
    parse_params_from_filename "t-x=3_dot_14" ≠ [("x", PyVal.vFloat "3.14")] ∧
    decode_param_value (encode_param_value (PyVal.vFloat "3.14")) =
      PyVal.vFloat "3.14" := by
  refine ⟨?_, by decide, by decide, by decide, by decide⟩
  intro v hu
  rcases parse_embedded_value v with hnone | ⟨val, hsub, hvu, heq⟩
  · rw [hnone]
    exact fun h => Option.noConfusion h
  · rw [heq]
    intro hcon
    have hdec : decode_param_value (String.mk val) = v := Option.some.inj hcon
    have hE := encode_no_special v
    have hvd : '.' ∉ val := by
      intro hm
      rcases List.mem_cons.mp (hsub hm) with h | hm2
      · exact absurd h (by decide)
      rcases List.mem_cons.mp hm2 with h | hm3
      · exact absurd h (by decide)
      exact hE.1 hm3
    have hvs : '/' ∉ val := by
      intro hm
      rcases List.mem_cons.mp (hsub hm) with h | hm2
      · exact absurd h (by decide)
      rcases List.mem_cons.mp hm2 with h | hm3
      · exact absurd h (by decide)
      exact hE.2.1 hm3
    have hvb : '\\' ∉ val := by
      intro hm
      rcases List.mem_cons.mp (hsub hm) with h | hm2
      · exact absurd h (by decide)
      rcases List.mem_cons.mp hm2 with h | hm3
      · exact absurd h (by decide)
      exact hE.2.2 hm3
    have hchar := decode_int_or_str (String.mk val) hvu hvd
    cases v with
    | vNone =>
      rcases hchar with ⟨n, hn⟩ | hs
      · exact PyVal.noConfusion (hn.symm.trans hdec)
      · exact PyVal.noConfusion (hs.symm.trans hdec)
    | vFloat r =>
      rcases hchar with ⟨n, hn⟩ | hs
      · exact PyVal.noConfusion (hn.symm.trans hdec)
      · exact PyVal.noConfusion (hs.symm.trans hdec)
    | vInt m =>
      have hfix : encode_param_value (PyVal.vInt m) = toString m := by
        show pyReplace (pyReplace (pyReplace (pyStr (PyVal.vInt m)) "."
          "_dot_") "/" "_slash_") "\\" "_backslash_" = toString m
        exact encode_chain_fix (toString m) (intStr_no_special m).1
          (intStr_no_special m).2.1 (intStr_no_special m).2.2.1
      rw [hfix] at hu
      exact (intStr_no_special m).2.2.2 hu
    | vStr s =>
      rcases hchar with ⟨n, hn⟩ | hs
      · exact PyVal.noConfusion (hn.symm.trans hdec)
      · have hval : s.data = val :=
          (congrArg String.data (PyVal.vStr.inj (hs.symm.trans hdec))).symm
        have hfix : encode_param_value (PyVal.vStr s) = s := by
          show pyReplace (pyReplace (pyReplace (pyStr (PyVal.vStr s)) "."
            "_dot_") "/" "_slash_") "\\" "_backslash_" = s
          exact encode_chain_fix s (hval ▸ hvd) (hval ▸ hvs) (hval ▸ hvb)
        rw [hfix] at hu
        exact hvu (hval ▸ hu)

/-- Concrete instance discharging the hypothesis of the universal part of
C10, at the encoded float 3.14. -/
theorem C10_split_before_decode_witness :
    '_' ∈ (encode_param_value (PyVal.vFloat "3.14")).data ∧
    dictGet "x" (parse_params_from_filename
        ("t-x=" ++ encode_param_value (PyVal.vFloat "3.14"))) ≠
      some (PyVal.vFloat "3.14") :=
  ⟨by decide, C10_split_before_decode.1 (PyVal.vFloat "3.14") (by decide)⟩

end CadOS

